import Mathlib

/-!
Verification of the segment/speaker reconciliation logic of the
mlx-transcribe scripts.

Times are floating-point seconds in the Python source; they are modelled
here as exact rationals (`ℚ`), so every arithmetic identity below is about
the ideal real-number semantics of the code.

The main embedded functions, from `src/transcript-with-diarization.py`:
  * `get_speaker_for_time` (lines 174-190), together with the insertion-order
    dictionary it builds (`accumSpeakerTime`) and Python's
    `max(d, key=d.get)` (`pyMaxKey`);
  * `format_transcript` (lines 192-215);
  * `format_time` (lines 217-222);
and, as event traces, the recording loop shared by
`transcript-by-segment.py` and `transcript-with-diarization.py`, and the
top-level error handling of `whipser-mp3.py`.
-/

/-- One diarization turn: the pair `(turn, speaker)` yielded by iterating the
pyannote annotation, with `turn.start` / `turn.end` its time interval.
(`end` is a Lean keyword, hence the field name `end_`.) -/
structure Turn where
  start : ℚ
  end_ : ℚ
  speaker : String
deriving DecidableEq, Repr

/-- `speaker_time[speaker] = speaker_time.get(speaker, 0) + duration`
(line 185), on an association list with Python-dict semantics: an existing
key is updated in place (insertion order kept), a new key is appended. -/
def updateSpeakerTime (m : List (String × ℚ)) (sp : String) (d : ℚ) :
    List (String × ℚ) :=
  match m with
  | [] => [(sp, d)]
  | (k, v) :: rest =>
      if k = sp then (k, v + d) :: rest else (k, v) :: updateSpeakerTime rest sp d

/-- The body of the `for turn, speaker in diarization` loop
(lines 179-185): clip the turn to the segment window and, when the clipped
interval is non-empty, add its length to that speaker's running total. -/
def accumStep (s e : ℚ) (m : List (String × ℚ)) (t : Turn) : List (String × ℚ) :=
  let overlap_start := max t.start s
  let overlap_end := min t.end_ e
  if overlap_start < overlap_end then
    updateSpeakerTime m t.speaker (overlap_end - overlap_start)
  else m

/-- The `speaker_time` dictionary built by `get_speaker_for_time`
(lines 176-185), in insertion order. -/
def accumSpeakerTime (turns : List Turn) (s e : ℚ) : List (String × ℚ) :=
  turns.foldl (accumStep s e) []

/-- Python's `max(speaker_time, key=speaker_time.get)` (line 190): scan the
keys in insertion order, replacing the current best only on a strictly
larger value, so the first key attaining the maximum wins. -/
def pyMaxKey : List (String × ℚ) → String → ℚ → String
  | [], best, _ => best
  | (k, v) :: rest, best, bv => if bv < v then pyMaxKey rest k v else pyMaxKey rest best bv

/-- `get_speaker_for_time(diarization, start, end)` (lines 174-190): the
dominant speaker of the window `[s, e]`, or `"Unknown Speaker"` when no
turn overlaps it. -/
def get_speaker_for_time (turns : List Turn) (s e : ℚ) : String :=
  let speaker_time := accumSpeakerTime turns s e
  match speaker_time with
  | [] => "Unknown Speaker"
  | (k, v) :: rest => pyMaxKey rest k v

/-- Specification-side overlap of one turn with the window `[s, e]`:
`max(0, min(turn.end, e) - max(turn.start, s))`. -/
def overlapAmount (t : Turn) (s e : ℚ) : ℚ :=
  max 0 (min t.end_ e - max t.start s)

/-- Specification-side total intersection length of one speaker's turns
with the window `[s, e]`. -/
def totalOverlap (turns : List Turn) (sp : String) (s e : ℚ) : ℚ :=
  ((turns.filter (fun t => t.speaker = sp)).map (fun t => overlapAmount t s e)).sum

/-- First-occurrence lookup in an association list, defaulting to `0`. -/
def lookupV : List (String × ℚ) → String → ℚ
  | [], _ => 0
  | (k, v) :: rest, sp => if k = sp then v else lookupV rest sp

/-- The keys of an association list, in order. -/
def keysOf (m : List (String × ℚ)) : List String :=
  m.map Prod.fst

theorem updateSpeakerTime_nil (sp : String) (d : ℚ) :
    updateSpeakerTime [] sp d = [(sp, d)] := rfl

theorem updateSpeakerTime_cons_eq (k : String) (v : ℚ) (rest : List (String × ℚ))
    (sp : String) (d : ℚ) (h : k = sp) :
    updateSpeakerTime ((k, v) :: rest) sp d = (k, v + d) :: rest := by
  simp [updateSpeakerTime, h]

theorem updateSpeakerTime_cons_ne (k : String) (v : ℚ) (rest : List (String × ℚ))
    (sp : String) (d : ℚ) (h : ¬ k = sp) :
    updateSpeakerTime ((k, v) :: rest) sp d = (k, v) :: updateSpeakerTime rest sp d := by
  simp [updateSpeakerTime, h]

theorem lookupV_updateSpeakerTime (m : List (String × ℚ)) (sp sp' : String) (d : ℚ) :
    lookupV (updateSpeakerTime m sp d) sp' =
      lookupV m sp' + (if sp' = sp then d else 0) := by
  induction m with
  | nil =>
      by_cases h : sp = sp'
      · subst h
        simp [updateSpeakerTime, lookupV]
      · have h' : ¬ sp' = sp := fun hs => h hs.symm
        simp [updateSpeakerTime, lookupV, h, h']
  | cons p rest ih =>
      obtain ⟨k, v⟩ := p
      by_cases hk : k = sp
      · subst hk
        by_cases hk' : k = sp'
        · subst hk'
          simp [updateSpeakerTime, lookupV]
        · have h' : ¬ sp' = k := fun hs => hk' hs.symm
          simp [updateSpeakerTime, lookupV, hk', h']
      · by_cases hk' : k = sp'
        · subst hk'
          simp [updateSpeakerTime, lookupV, hk]
        · simp [updateSpeakerTime, lookupV, hk, hk', ih]

theorem keysOf_updateSpeakerTime (m : List (String × ℚ)) (sp sp' : String) (d : ℚ) :
    sp' ∈ keysOf (updateSpeakerTime m sp d) ↔ sp' ∈ keysOf m ∨ sp' = sp := by
  induction m with
  | nil => simp [updateSpeakerTime, keysOf, eq_comm]
  | cons p rest ih =>
      obtain ⟨k, v⟩ := p
      by_cases hk : k = sp
      · subst hk
        rw [updateSpeakerTime_cons_eq k v rest k d rfl]
        simp only [keysOf, List.map_cons, List.mem_cons]
        tauto
      · rw [updateSpeakerTime_cons_ne k v rest sp d hk]
        simp only [keysOf, List.map_cons, List.mem_cons] at *
        rw [ih]
        tauto

theorem pos_updateSpeakerTime (m : List (String × ℚ)) (sp : String) (d : ℚ)
    (hm : ∀ p ∈ m, 0 < p.2) (hd : 0 < d) :
    ∀ p ∈ updateSpeakerTime m sp d, 0 < p.2 := by
  induction m with
  | nil =>
      intro p hp
      simp [updateSpeakerTime] at hp
      subst hp
      exact hd
  | cons q rest ih =>
      obtain ⟨k, v⟩ := q
      intro p hp
      by_cases hk : k = sp
      · subst hk
        rw [updateSpeakerTime_cons_eq k v rest k d rfl] at hp
        rcases List.mem_cons.mp hp with hp | hp
        · subst hp
          have hv : 0 < v := hm (k, v) (by simp)
          exact add_pos hv hd
        · exact hm p (List.mem_cons_of_mem _ hp)
      · rw [updateSpeakerTime_cons_ne k v rest sp d hk] at hp
        rcases List.mem_cons.mp hp with hp | hp
        · subst hp
          exact hm (k, v) (by simp)
        · exact ih (fun q hq => hm q (List.mem_cons_of_mem _ hq)) p hp

theorem nodup_keysOf_updateSpeakerTime (m : List (String × ℚ)) (sp : String) (d : ℚ)
    (hm : (keysOf m).Nodup) : (keysOf (updateSpeakerTime m sp d)).Nodup := by
  induction m with
  | nil => simp [updateSpeakerTime, keysOf]
  | cons q rest ih =>
      obtain ⟨k, v⟩ := q
      simp only [keysOf, List.map_cons, List.nodup_cons] at hm
      by_cases hk : k = sp
      · subst hk
        rw [updateSpeakerTime_cons_eq k v rest k d rfl]
        simp only [keysOf, List.map_cons, List.nodup_cons]
        exact hm
      · rw [updateSpeakerTime_cons_ne k v rest sp d hk]
        simp only [keysOf, List.map_cons, List.nodup_cons]
        refine ⟨fun hmem => ?_, ih hm.2⟩
        have hmem' : k ∈ keysOf (updateSpeakerTime rest sp d) := hmem
        rw [keysOf_updateSpeakerTime] at hmem'
        rcases hmem' with hmem' | hmem'
        · exact hm.1 hmem'
        · exact hk hmem'

theorem totalOverlap_nil (sp : String) (s e : ℚ) : totalOverlap [] sp s e = 0 := rfl

theorem totalOverlap_cons (t : Turn) (turns : List Turn) (sp : String) (s e : ℚ) :
    totalOverlap (t :: turns) sp s e =
      (if t.speaker = sp then overlapAmount t s e else 0) + totalOverlap turns sp s e := by
  by_cases h : t.speaker = sp
  · simp [totalOverlap, List.filter_cons, h]
  · simp [totalOverlap, List.filter_cons, h]

theorem overlapAmount_of_pos (t : Turn) (s e : ℚ) (h : max t.start s < min t.end_ e) :
    overlapAmount t s e = min t.end_ e - max t.start s := by
  unfold overlapAmount
  rw [max_eq_right]
  linarith

theorem overlapAmount_of_nonpos (t : Turn) (s e : ℚ) (h : ¬ max t.start s < min t.end_ e) :
    overlapAmount t s e = 0 := by
  unfold overlapAmount
  rw [max_eq_left]
  linarith [not_lt.mp h]

theorem lookupV_foldl_accumStep (s e : ℚ) :
    ∀ (turns : List Turn) (m : List (String × ℚ)) (sp : String),
      lookupV (turns.foldl (accumStep s e) m) sp = lookupV m sp + totalOverlap turns sp s e := by
  intro turns
  induction turns with
  | nil =>
      intro m sp
      simp [totalOverlap_nil]
  | cons t ts ih =>
      intro m sp
      rw [List.foldl_cons, ih, totalOverlap_cons]
      unfold accumStep
      by_cases h : max t.start s < min t.end_ e
      · rw [if_pos h, lookupV_updateSpeakerTime, overlapAmount_of_pos t s e h]
        by_cases hsp : t.speaker = sp
        · rw [if_pos hsp, if_pos hsp.symm]
          ring
        · rw [if_neg hsp, if_neg (fun hs : sp = t.speaker => hsp hs.symm)]
          ring
      · rw [if_neg h, overlapAmount_of_nonpos t s e h]
        by_cases hsp : t.speaker = sp
        · rw [if_pos hsp]
          ring
        · rw [if_neg hsp]
          ring

theorem lookupV_accumSpeakerTime (turns : List Turn) (s e : ℚ) (sp : String) :
    lookupV (accumSpeakerTime turns s e) sp = totalOverlap turns sp s e := by
  unfold accumSpeakerTime
  rw [lookupV_foldl_accumStep]
  simp [lookupV]

theorem pos_foldl_accumStep (s e : ℚ) :
    ∀ (turns : List Turn) (m : List (String × ℚ)),
      (∀ p ∈ m, 0 < p.2) → ∀ p ∈ turns.foldl (accumStep s e) m, 0 < p.2 := by
  intro turns
  induction turns with
  | nil =>
      intro m hm
      simpa using hm
  | cons t ts ih =>
      intro m hm
      rw [List.foldl_cons]
      apply ih
      unfold accumStep
      by_cases h : max t.start s < min t.end_ e
      · rw [if_pos h]
        exact pos_updateSpeakerTime m _ _ hm (by linarith)
      · rw [if_neg h]
        exact hm

theorem pos_accumSpeakerTime (turns : List Turn) (s e : ℚ) :
    ∀ p ∈ accumSpeakerTime turns s e, 0 < p.2 :=
  pos_foldl_accumStep s e turns [] (by simp)

theorem nodup_foldl_accumStep (s e : ℚ) :
    ∀ (turns : List Turn) (m : List (String × ℚ)),
      (keysOf m).Nodup → (keysOf (turns.foldl (accumStep s e) m)).Nodup := by
  intro turns
  induction turns with
  | nil =>
      intro m hm
      simpa using hm
  | cons t ts ih =>
      intro m hm
      rw [List.foldl_cons]
      apply ih
      unfold accumStep
      by_cases h : max t.start s < min t.end_ e
      · rw [if_pos h]
        exact nodup_keysOf_updateSpeakerTime m _ _ hm
      · rw [if_neg h]
        exact hm

theorem nodup_accumSpeakerTime (turns : List Turn) (s e : ℚ) :
    (keysOf (accumSpeakerTime turns s e)).Nodup :=
  nodup_foldl_accumStep s e turns [] (by simp [keysOf])

theorem lookupV_zero_or_mem :
    ∀ (m : List (String × ℚ)) (sp : String),
      lookupV m sp = 0 ∨ (sp, lookupV m sp) ∈ m := by
  intro m
  induction m with
  | nil =>
      intro sp
      exact Or.inl rfl
  | cons p rest ih =>
      intro sp
      obtain ⟨k, v⟩ := p
      by_cases h : k = sp
      · subst h
        right
        simp [lookupV]
      · rcases ih sp with h0 | hm
        · left
          simpa [lookupV, h] using h0
        · right
          have : lookupV ((k, v) :: rest) sp = lookupV rest sp := by
            simp [lookupV, h]
          rw [this]
          exact List.mem_cons_of_mem _ hm

theorem fst_mem_keysOf {m : List (String × ℚ)} {a : String} {b : ℚ} (h : (a, b) ∈ m) :
    a ∈ keysOf m :=
  List.mem_map_of_mem Prod.fst h

theorem lookupV_eq_of_mem :
    ∀ (m : List (String × ℚ)), (keysOf m).Nodup →
      ∀ (a : String) (b : ℚ), (a, b) ∈ m → lookupV m a = b := by
  intro m
  induction m with
  | nil =>
      intro _ a b hab
      simp at hab
  | cons p rest ih =>
      intro hm a b hab
      obtain ⟨k, v⟩ := p
      simp only [keysOf, List.map_cons, List.nodup_cons] at hm
      rcases List.mem_cons.mp hab with hab | hab
      · have hk : a = k := congrArg Prod.fst hab
        have hv : b = v := congrArg Prod.snd hab
        subst hk
        subst hv
        simp [lookupV]
      · have hka : ¬ k = a := by
          intro hka
          subst hka
          exact hm.1 (fst_mem_keysOf hab)
        have : lookupV ((k, v) :: rest) a = lookupV rest a := by
          simp [lookupV, hka]
        rw [this]
        exact ih hm.2 a b hab

/-- `maxPred m p` says that `p`'s value is greatest among the entries of `m`. -/
def maxPred (m : List (String × ℚ)) (p : String × ℚ) : Bool :=
  m.all (fun q => q.2 ≤ p.2)

/-- The first entry of `m` (in insertion order) whose value is maximal. -/
def firstMaxEntry (m : List (String × ℚ)) : Option (String × ℚ) :=
  m.find? (maxPred m)

theorem maxPred_true_iff (m : List (String × ℚ)) (p : String × ℚ) :
    maxPred m p = true ↔ ∀ q ∈ m, q.2 ≤ p.2 := by
  simp [maxPred, List.all_eq_true]

theorem maxPred_cons (x : String × ℚ) (r : List (String × ℚ)) (p : String × ℚ) :
    maxPred (x :: r) p = (decide (x.2 ≤ p.2) && maxPred r p) := by
  simp [maxPred, List.all_cons]

theorem find?_congr_on (l : List (String × ℚ)) (p q : String × ℚ → Bool)
    (h : ∀ x ∈ l, p x = q x) : l.find? p = l.find? q := by
  induction l with
  | nil => rfl
  | cons a as ih =>
      cases hpa : p a with
      | true =>
          rw [List.find?_cons_of_pos _ hpa,
            List.find?_cons_of_pos _ ((h a (by simp)).symm.trans hpa)]
      | false =>
          rw [List.find?_cons_of_neg _ (by simp [hpa]),
            List.find?_cons_of_neg _ (by simp [← h a (by simp), hpa])]
          exact ih fun x hx => h x (List.mem_cons_of_mem _ hx)

theorem pyMaxKey_firstMaxEntry (rest : List (String × ℚ)) :
    ∀ (k : String) (v : ℚ),
      ∃ p : String × ℚ,
        firstMaxEntry ((k, v) :: rest) = some p ∧ pyMaxKey rest k v = p.1 := by
  induction rest with
  | nil =>
      intro k v
      refine ⟨(k, v), ?_, rfl⟩
      unfold firstMaxEntry
      rw [List.find?_cons_of_pos _ (by simp [maxPred])]
  | cons q rest' ih =>
      obtain ⟨k₁, v₁⟩ := q
      intro k v
      by_cases hlt : v < v₁
      · obtain ⟨p, hp, hpk⟩ := ih k₁ v₁
        refine ⟨p, ?_, by simpa [pyMaxKey, hlt] using hpk⟩
        unfold firstMaxEntry at hp ⊢
        have hhead : maxPred ((k, v) :: (k₁, v₁) :: rest') (k, v) = false := by
          rw [Bool.eq_false_iff]
          intro habs
          have := (maxPred_true_iff _ _).mp habs (k₁, v₁) (by simp)
          simp only at this
          linarith
        rw [List.find?_cons_of_neg _ (by simp [hhead])]
        rw [find?_congr_on ((k₁, v₁) :: rest') _ (maxPred ((k₁, v₁) :: rest'))]
        · exact hp
        · intro x hx
          rw [maxPred_cons]
          cases hx2 : maxPred ((k₁, v₁) :: rest') x with
          | true =>
              have hv₁ : v₁ ≤ x.2 := (maxPred_true_iff _ _).mp hx2 (k₁, v₁) (by simp)
              have : v ≤ x.2 := by linarith
              simp [this, hx2]
          | false => simp [hx2]
      · have hle : v₁ ≤ v := not_lt.mp hlt
        obtain ⟨p, hp, hpk⟩ := ih k v
        refine ⟨p, ?_, by simpa [pyMaxKey, hlt] using hpk⟩
        unfold firstMaxEntry at hp ⊢
        cases hhead : maxPred ((k, v) :: rest') (k, v) with
        | true =>
            have hall : ∀ x ∈ (k, v) :: rest', x.2 ≤ v := (maxPred_true_iff _ _).mp hhead
            have hp' : p = (k, v) := by
              rw [List.find?_cons_of_pos _ hhead] at hp
              exact (Option.some.injEq .. ▸ hp).symm
            have hhead2 : maxPred ((k, v) :: (k₁, v₁) :: rest') (k, v) = true := by
              rw [maxPred_true_iff]
              intro x hx
              rcases List.mem_cons.mp hx with hx | hx
              · subst hx; exact le_refl _
              · rcases List.mem_cons.mp hx with hx | hx
                · subst hx; exact hle
                · exact hall x (List.mem_cons_of_mem _ hx)
            rw [List.find?_cons_of_pos _ hhead2, hp']
        | false =>
            have hex : ∃ x ∈ rest', v < x.2 := by
              have := (Bool.eq_false_iff.mp hhead)
              by_contra hno
              push_neg at hno
              apply this
              rw [maxPred_true_iff]
              intro x hx
              rcases List.mem_cons.mp hx with hx | hx
              · subst hx; exact le_refl _
              · exact hno x hx
            obtain ⟨x₀, hx₀m, hx₀⟩ := hex
            have hheadA : maxPred ((k, v) :: (k₁, v₁) :: rest') (k, v) = false := by
              rw [Bool.eq_false_iff]
              intro habs
              have := (maxPred_true_iff _ _).mp habs x₀
                (List.mem_cons_of_mem _ (List.mem_cons_of_mem _ hx₀m))
              linarith
            have hheadB : maxPred ((k, v) :: (k₁, v₁) :: rest') (k₁, v₁) = false := by
              rw [Bool.eq_false_iff]
              intro habs
              have := (maxPred_true_iff _ _).mp habs x₀
                (List.mem_cons_of_mem _ (List.mem_cons_of_mem _ hx₀m))
              simp only at this
              linarith
            rw [List.find?_cons_of_neg _ (by simp [hheadA]),
              List.find?_cons_of_neg _ (by simp [hheadB])]
            rw [List.find?_cons_of_neg _ (by simp [hhead])] at hp
            rw [← hp]
            apply find?_congr_on
            intro x hx
            rw [maxPred_cons, maxPred_cons, maxPred_cons]
            by_cases hvx : v ≤ x.2
            · have hv₁x : v₁ ≤ x.2 := le_trans hle hvx
              simp [hvx, hv₁x]
            · simp [hvx]

theorem get_speaker_for_time_of_nil (turns : List Turn) (s e : ℚ)
    (h : accumSpeakerTime turns s e = []) :
    get_speaker_for_time turns s e = "Unknown Speaker" := by
  unfold get_speaker_for_time
  rw [h]

theorem get_speaker_for_time_firstMaxEntry (turns : List Turn) (s e : ℚ)
    (hne : accumSpeakerTime turns s e ≠ []) :
    ∃ p : String × ℚ,
      firstMaxEntry (accumSpeakerTime turns s e) = some p
      ∧ get_speaker_for_time turns s e = p.1 := by
  unfold get_speaker_for_time
  cases hm : accumSpeakerTime turns s e with
  | nil => exact absurd hm hne
  | cons q rest =>
      obtain ⟨k, v⟩ := q
      simpa using pyMaxKey_firstMaxEntry rest k v

theorem accumSpeakerTime_of_all_zero (turns : List Turn) (s e : ℚ)
    (h : ∀ t ∈ turns, overlapAmount t s e = 0) :
    accumSpeakerTime turns s e = [] := by
  unfold accumSpeakerTime
  induction turns with
  | nil => rfl
  | cons t ts ih =>
      rw [List.foldl_cons]
      have hno : ¬ max t.start s < min t.end_ e := by
        intro hlt
        have := overlapAmount_of_pos t s e hlt
        have hz := h t (by simp)
        rw [hz] at this
        linarith
      have hstep : accumStep s e [] t = [] := by
        simp only [accumStep]
        rw [if_neg hno]
      rw [hstep]
      exact ih fun t' ht' => h t' (List.mem_cons_of_mem _ ht')

/-- Claim C1: for every list of diarization turns and window `[s, e]` with
`e ≥ s`, `get_speaker_for_time` returns a speaker whose total intersection
length with the window (summing `max(0, min(turn.end, e) - max(turn.start, s))`
over that speaker's turns) is maximal among all labels; and when every turn's
intersection with the window is zero (in particular on an empty list of
turns) it returns the sentinel `"Unknown Speaker"`. -/
theorem C1_speaker_attribution_max (turns : List Turn) (s e : ℚ) (h : s ≤ e) :
    (∀ sp : String, totalOverlap turns sp s e ≤
        totalOverlap turns (get_speaker_for_time turns s e) s e)
    ∧ ((∀ t ∈ turns, overlapAmount t s e = 0) →
        get_speaker_for_time turns s e = "Unknown Speaker") := by
  constructor
  · intro sp
    cases hm : accumSpeakerTime turns s e with
    | nil =>
        have h0 : ∀ sp' : String, totalOverlap turns sp' s e = 0 := by
          intro sp'
          rw [← lookupV_accumSpeakerTime, hm]
          rfl
        rw [h0 sp, h0 (get_speaker_for_time turns s e)]
    | cons q rest =>
        obtain ⟨p, hp, hpk⟩ :=
          get_speaker_for_time_firstMaxEntry turns s e (by rw [hm]; simp)
        obtain ⟨p1, p2⟩ := p
        have hpmem : (p1, p2) ∈ accumSpeakerTime turns s e := by
          unfold firstMaxEntry at hp
          exact List.mem_of_find?_eq_some hp
        have hpmax : ∀ q' ∈ accumSpeakerTime turns s e, q'.2 ≤ p2 := by
          intro q' hq'
          have := List.find?_some (p := maxPred (accumSpeakerTime turns s e)) hp
          exact (maxPred_true_iff _ _).mp this q' hq'
        have hres : totalOverlap turns p1 s e = p2 := by
          rw [← lookupV_accumSpeakerTime]
          exact lookupV_eq_of_mem _ (nodup_accumSpeakerTime turns s e) p1 p2 hpmem
        rw [hpk]
        simp only
        rw [hres, ← lookupV_accumSpeakerTime]
        rcases lookupV_zero_or_mem (accumSpeakerTime turns s e) sp with h0 | hmem
        · rw [h0]
          have := pos_accumSpeakerTime turns s e (p1, p2) hpmem
          simp only at this
          linarith
        · exact hpmax _ hmem
  · intro hz
    exact get_speaker_for_time_of_nil turns s e (accumSpeakerTime_of_all_zero turns s e hz)

theorem C1_speaker_attribution_max_witness :
    (∀ sp : String,
        totalOverlap [⟨0, 10, "A"⟩, ⟨10, 20, "B"⟩] sp 8 15 ≤
          totalOverlap [⟨0, 10, "A"⟩, ⟨10, 20, "B"⟩]
            (get_speaker_for_time [⟨0, 10, "A"⟩, ⟨10, 20, "B"⟩] 8 15) 8 15)
    ∧ ((∀ t ∈ [Turn.mk 0 10 "A", Turn.mk 10 20 "B"], overlapAmount t 8 15 = 0) →
        get_speaker_for_time [⟨0, 10, "A"⟩, ⟨10, 20, "B"⟩] 8 15 = "Unknown Speaker") :=
  C1_speaker_attribution_max [⟨0, 10, "A"⟩, ⟨10, 20, "B"⟩] 8 15 (by decide)

/-- Claim C2: a turn that exactly abuts the segment window
(`turn.end = s`, or symmetrically `turn.start = e`) has zero overlap with
it, and contributes nothing: deleting it from the turn list changes neither
the accumulated `speaker_time` dictionary nor the chosen speaker nor its
speaker's total overlap. -/
theorem C2_abutting_turn_zero_overlap (t : Turn) (s e : ℚ) (turns₁ turns₂ : List Turn)
    (h : t.end_ = s ∨ t.start = e) :
    overlapAmount t s e = 0
    ∧ accumSpeakerTime (turns₁ ++ t :: turns₂) s e = accumSpeakerTime (turns₁ ++ turns₂) s e
    ∧ totalOverlap (turns₁ ++ t :: turns₂) t.speaker s e
        = totalOverlap (turns₁ ++ turns₂) t.speaker s e
    ∧ get_speaker_for_time (turns₁ ++ t :: turns₂) s e
        = get_speaker_for_time (turns₁ ++ turns₂) s e := by
  have hno : ¬ max t.start s < min t.end_ e := by
    rcases h with h | h
    · intro hlt
      have h1 : min t.end_ e ≤ s := by
        rw [h]
        exact min_le_left s e
      have h2 : s ≤ max t.start s := le_max_right t.start s
      linarith
    · intro hlt
      have h1 : min t.end_ e ≤ t.start := by
        rw [h]
        exact min_le_right t.end_ e
      have h2 : t.start ≤ max t.start s := le_max_left t.start s
      linarith
  have hzero : overlapAmount t s e = 0 := overlapAmount_of_nonpos t s e hno
  have hstep : ∀ m : List (String × ℚ), accumStep s e m t = m := by
    intro m
    simp only [accumStep]
    rw [if_neg hno]
  have haccum : accumSpeakerTime (turns₁ ++ t :: turns₂) s e
      = accumSpeakerTime (turns₁ ++ turns₂) s e := by
    unfold accumSpeakerTime
    rw [List.foldl_append, List.foldl_append, List.foldl_cons, hstep]
  refine ⟨hzero, haccum, ?_, ?_⟩
  · have h₁ : ∀ sp : String, totalOverlap (turns₁ ++ t :: turns₂) sp s e
        = totalOverlap (turns₁ ++ turns₂) sp s e := by
      intro sp
      rw [← lookupV_accumSpeakerTime, ← lookupV_accumSpeakerTime, haccum]
    exact h₁ t.speaker
  · unfold get_speaker_for_time
    rw [haccum]

theorem C2_abutting_turn_zero_overlap_witness :
    overlapAmount ⟨0, 1, "A"⟩ 1 2 = 0
    ∧ accumSpeakerTime ([] ++ Turn.mk 0 1 "A" :: [⟨1, 2, "B"⟩]) 1 2
        = accumSpeakerTime ([] ++ [⟨1, 2, "B"⟩]) 1 2
    ∧ totalOverlap ([] ++ Turn.mk 0 1 "A" :: [⟨1, 2, "B"⟩]) (Turn.mk 0 1 "A").speaker 1 2
        = totalOverlap ([] ++ [⟨1, 2, "B"⟩]) (Turn.mk 0 1 "A").speaker 1 2
    ∧ get_speaker_for_time ([] ++ Turn.mk 0 1 "A" :: [⟨1, 2, "B"⟩]) 1 2
        = get_speaker_for_time ([] ++ [⟨1, 2, "B"⟩]) 1 2 :=
  C2_abutting_turn_zero_overlap ⟨0, 1, "A"⟩ 1 2 [] [⟨1, 2, "B"⟩] (Or.inl rfl)

/-- Claim C9: when two distinct speakers both attain the maximal accumulated
overlap, `get_speaker_for_time` deterministically returns the first entry of
the accumulation dictionary (insertion order = order of first positive
overlap in turn iteration order) attaining the maximum. -/
theorem C9_tie_break_first_inserted (turns : List Turn) (s e : ℚ)
    (sp₁ sp₂ : String) (v : ℚ)
    (h₁ : (sp₁, v) ∈ accumSpeakerTime turns s e)
    (h₂ : (sp₂, v) ∈ accumSpeakerTime turns s e)
    (hne : sp₁ ≠ sp₂)
    (hmax : ∀ q ∈ accumSpeakerTime turns s e, q.2 ≤ v) :
    ∃ p : String × ℚ,
      firstMaxEntry (accumSpeakerTime turns s e) = some p
      ∧ get_speaker_for_time turns s e = p.1
      ∧ p.2 = v := by
  obtain ⟨p, hp, hpk⟩ :=
    get_speaker_for_time_firstMaxEntry turns s e (List.ne_nil_of_mem h₁)
  refine ⟨p, hp, hpk, ?_⟩
  have hpmem : p ∈ accumSpeakerTime turns s e := by
    unfold firstMaxEntry at hp
    exact List.mem_of_find?_eq_some hp
  have hple : p.2 ≤ v := hmax p hpmem
  have hvle : v ≤ p.2 := by
    have := List.find?_some (p := maxPred (accumSpeakerTime turns s e)) hp
    exact (maxPred_true_iff _ _).mp this (sp₁, v) h₁
  linarith

theorem C9_tie_break_first_inserted_witness :
    ∃ p : String × ℚ,
      firstMaxEntry (accumSpeakerTime [⟨0, 1, "A"⟩, ⟨2, 3, "B"⟩] 0 3) = some p
      ∧ get_speaker_for_time [⟨0, 1, "A"⟩, ⟨2, 3, "B"⟩] 0 3 = p.1
      ∧ p.2 = 1 :=
  C9_tie_break_first_inserted [⟨0, 1, "A"⟩, ⟨2, 3, "B"⟩] 0 3 "A" "B" 1
    (by norm_num [accumSpeakerTime, accumStep, updateSpeakerTime]; decide)
    (by norm_num [accumSpeakerTime, accumStep, updateSpeakerTime]; decide)
    (by decide)
    (by
      intro q hq
      norm_num [accumSpeakerTime, accumStep, updateSpeakerTime] at hq
      rw [if_neg (by decide : ¬ "A" = "B")] at hq
      rcases List.mem_cons.mp hq with hq | hq
      · subst hq
        norm_num
      · rcases List.mem_cons.mp hq with hq | hq
        · subst hq
          norm_num
        · simp at hq)

/-- Claim C10: whenever `get_speaker_for_time` returns a label other than
the sentinel `"Unknown Speaker"`, that label's total overlap with the window
is strictly positive; and a speaker whose total overlap is zero never
appears in the accumulation dictionary and is never the returned label. -/
theorem C10_positive_overlap_of_known (turns : List Turn) (s e : ℚ)
    (h : get_speaker_for_time turns s e ≠ "Unknown Speaker") :
    0 < totalOverlap turns (get_speaker_for_time turns s e) s e
    ∧ ∀ sp : String, totalOverlap turns sp s e = 0 →
        sp ∉ keysOf (accumSpeakerTime turns s e)
        ∧ get_speaker_for_time turns s e ≠ sp := by
  have hne : accumSpeakerTime turns s e ≠ [] := by
    intro hnil
    exact h (get_speaker_for_time_of_nil turns s e hnil)
  obtain ⟨p, hp, hpk⟩ := get_speaker_for_time_firstMaxEntry turns s e hne
  obtain ⟨p1, p2⟩ := p
  have hpmem : (p1, p2) ∈ accumSpeakerTime turns s e := by
    unfold firstMaxEntry at hp
    exact List.mem_of_find?_eq_some hp
  have hpos : 0 < p2 := by
    have := pos_accumSpeakerTime turns s e (p1, p2) hpmem
    simpa using this
  have hres : totalOverlap turns p1 s e = p2 := by
    rw [← lookupV_accumSpeakerTime]
    exact lookupV_eq_of_mem _ (nodup_accumSpeakerTime turns s e) p1 p2 hpmem
  have hmain : 0 < totalOverlap turns (get_speaker_for_time turns s e) s e := by
    rw [hpk]
    simp only
    rw [hres]
    exact hpos
  refine ⟨hmain, ?_⟩
  intro sp hsp
  refine ⟨?_, ?_⟩
  · intro hkey
    obtain ⟨q, hqmem, hqfst⟩ := List.mem_map.mp hkey
    obtain ⟨q1, q2⟩ := q
    simp only at hqfst
    subst hqfst
    have hq2 : lookupV (accumSpeakerTime turns s e) q1 = q2 :=
      lookupV_eq_of_mem _ (nodup_accumSpeakerTime turns s e) q1 q2 hqmem
    have hq2pos : 0 < q2 := by
      have := pos_accumSpeakerTime turns s e (q1, q2) hqmem
      simpa using this
    rw [lookupV_accumSpeakerTime, hsp] at hq2
    linarith
  · intro heq
    rw [heq, hsp] at hmain
    linarith

theorem C10_positive_overlap_of_known_witness :
    0 < totalOverlap [⟨0, 1, "A"⟩]
        (get_speaker_for_time [⟨0, 1, "A"⟩] 0 1) 0 1
    ∧ ∀ sp : String, totalOverlap [⟨0, 1, "A"⟩] sp 0 1 = 0 →
        sp ∉ keysOf (accumSpeakerTime [⟨0, 1, "A"⟩] 0 1)
        ∧ get_speaker_for_time [⟨0, 1, "A"⟩] 0 1 ≠ sp :=
  C10_positive_overlap_of_known [⟨0, 1, "A"⟩] 0 1
    (by norm_num [get_speaker_for_time, accumSpeakerTime, accumStep,
      updateSpeakerTime, pyMaxKey]; decide)

/-- Python floor division `a // b` of floats followed by `int(...)`, as exact
rationals: the integer `⌊a / b⌋` (`int()` is exact on the integral float
that `//` produces). -/
def pyFloorDiv (a b : ℚ) : Int := ⌊a / b⌋

/-- Python `a % b` on floats, as exact rationals: `a - b * (a // b)`. -/
def pyMod (a b : ℚ) : ℚ := a - b * ⌊a / b⌋

/-- Python `int(x)` on a float: truncation toward zero. -/
def pyTrunc (q : ℚ) : Int := if q < 0 then ⌈q⌉ else ⌊q⌋

/-- Python `f"{n:02d}"`: decimal rendering zero-padded to width at least 2. -/
def pad2 (n : Int) : String :=
  if 0 ≤ n ∧ n < 10 then "0" ++ toString n else toString n

/-- `format_time(seconds)` (lines 217-222):
`hours = int(seconds // 3600)`, `minutes = int((seconds % 3600) // 60)`,
`secs = int(seconds % 60)`, rendered `"HH:MM:SS"` with `{:02d}` fields. -/
def format_time (seconds : ℚ) : String :=
  let hours : Int := pyFloorDiv seconds 3600
  let minutes : Int := pyFloorDiv (pyMod seconds 3600) 60
  let secs : Int := pyTrunc (pyMod seconds 60)
  pad2 hours ++ ":" ++ pad2 minutes ++ ":" ++ pad2 secs

theorem pyMod_nonneg (a b : ℚ) (hb : 0 < b) : 0 ≤ pyMod a b := by
  unfold pyMod
  have h := Int.sub_floor_div_mul_nonneg a hb
  rw [mul_comm] at h
  exact h

theorem format_time_spec (s : ℚ) (h : 0 ≤ s) :
    format_time s =
      pad2 ⌊s / 3600⌋ ++ ":" ++ pad2 ⌊(s - 3600 * ⌊s / 3600⌋) / 60⌋ ++ ":"
        ++ pad2 ⌊s - 60 * ⌊s / 60⌋⌋ := by
  have hsec : pyTrunc (pyMod s 60) = ⌊s - 60 * ⌊s / 60⌋⌋ := by
    have h0 : 0 ≤ pyMod s 60 := pyMod_nonneg s 60 (by norm_num)
    unfold pyTrunc
    rw [if_neg (not_lt.mpr h0)]
    rfl
  show pad2 (pyFloorDiv s 3600) ++ ":" ++ pad2 (pyFloorDiv (pyMod s 3600) 60)
      ++ ":" ++ pad2 (pyTrunc (pyMod s 60)) = _
  rw [hsec]
  rfl

theorem format_time_eval (s : ℚ) (a b c d : ℤ) (h : 0 ≤ s)
    (ha : ⌊s / 3600⌋ = a) (hb : ⌊(s - 3600 * (a : ℚ)) / 60⌋ = b)
    (hc : ⌊s / 60⌋ = c) (hd : ⌊s - 60 * (c : ℚ)⌋ = d) :
    format_time s = pad2 a ++ ":" ++ pad2 b ++ ":" ++ pad2 d := by
  rw [format_time_spec s h, ha, hb, hc, hd]

/-- Claim C4: for every non-negative number of seconds, `format_time`
converts by integer truncation (never rounding up): the fields are
`⌊s / 3600⌋`, `⌊(s mod 3600) / 60⌋` and `⌊s mod 60⌋` (with `mod` the
mathematical remainder `a - b * ⌊a / b⌋`); in particular
`format_time 3661 = "01:01:01"`, `format_time 59 = "00:00:59"`,
`format_time 59.9 = "00:00:59"`, and at 100 hours or more the hour field
simply grows wider (`format_time 360000 = "100:00:00"`). -/
theorem C4_format_time_truncation (s : ℚ) (h : 0 ≤ s) :
    format_time s =
      pad2 ⌊s / 3600⌋ ++ ":" ++ pad2 ⌊(s - 3600 * ⌊s / 3600⌋) / 60⌋ ++ ":"
        ++ pad2 ⌊s - 60 * ⌊s / 60⌋⌋
    ∧ format_time 3661 = "01:01:01"
    ∧ format_time 59 = "00:00:59"
    ∧ format_time (599 / 10) = "00:00:59"
    ∧ format_time 360000 = "100:00:00" := by
  refine ⟨format_time_spec s h, ?_, ?_, ?_, ?_⟩
  · rw [format_time_eval 3661 1 1 61 1 (by norm_num) (by norm_num [Int.floor_eq_iff])
      (by norm_num [Int.floor_eq_iff]) (by norm_num [Int.floor_eq_iff])
      (by norm_num [Int.floor_eq_iff])]
    rfl
  · rw [format_time_eval 59 0 0 0 59 (by norm_num) (by norm_num [Int.floor_eq_iff])
      (by norm_num [Int.floor_eq_iff]) (by norm_num [Int.floor_eq_iff])
      (by norm_num [Int.floor_eq_iff])]
    rfl
  · rw [format_time_eval (599 / 10) 0 0 0 59 (by norm_num)
      (by norm_num [Int.floor_eq_iff]) (by norm_num [Int.floor_eq_iff])
      (by norm_num [Int.floor_eq_iff]) (by norm_num [Int.floor_eq_iff])]
    rfl
  · rw [format_time_eval 360000 100 0 6000 0 (by norm_num)
      (by norm_num [Int.floor_eq_iff]) (by norm_num [Int.floor_eq_iff])
      (by norm_num [Int.floor_eq_iff]) (by norm_num [Int.floor_eq_iff])]
    rfl

theorem C4_format_time_truncation_witness :
    (format_time 3661 =
      pad2 ⌊(3661 : ℚ) / 3600⌋ ++ ":"
        ++ pad2 ⌊((3661 : ℚ) - 3600 * ⌊(3661 : ℚ) / 3600⌋) / 60⌋ ++ ":"
        ++ pad2 ⌊(3661 : ℚ) - 60 * ⌊(3661 : ℚ) / 60⌋⌋)
    ∧ format_time 3661 = "01:01:01"
    ∧ format_time 59 = "00:00:59"
    ∧ format_time (599 / 10) = "00:00:59"
    ∧ format_time 360000 = "100:00:00" :=
  C4_format_time_truncation 3661 (by norm_num)

/-- One merged transcript entry: the dict
`{"speaker": ..., "start": ..., "end": ..., "text": ...}` appended at
lines 153-158 and consumed by `format_transcript`. -/
structure Seg where
  speaker : String
  start : ℚ
  end_ : ℚ
  text : String
deriving DecidableEq, Repr

/-- The f-string `f"[{timestamp}] {speaker}:\n"` of line 209. -/
def headerOf (sg : Seg) : String :=
  "[" ++ format_time sg.start ++ "] " ++ sg.speaker ++ ":\n"

/-- The f-string `f"  {text}\n"` of line 212. -/
def lineOf (sg : Seg) : String :=
  "  " ++ sg.text ++ "\n"

/-- The `'='*70` separator used in the segment banner (lines 194-196). -/
def sepLine : String := String.mk (List.replicate 70 '=')

/-- The banner built at lines 194-196:
`"\n{'='*70}\nSEGMENT {segment_num}\n{'='*70}\n\n"`. -/
def segmentBanner (segment_num : Nat) : String :=
  "\n" ++ sepLine ++ "\n" ++ "SEGMENT " ++ toString segment_num ++ "\n"
    ++ sepLine ++ "\n\n"

/-- One iteration of the `for seg in segments` loop (lines 200-212) on the
state `(output, current_speaker)`: a new block header whenever the speaker
differs from `current_speaker` (with a blank line first unless this is the
very first block), then the text line. -/
def formatStep (acc : String × Option String) (sg : Seg) : String × Option String :=
  let acc' :=
    if some sg.speaker ≠ acc.2 then
      ((if acc.2 ≠ none then acc.1 ++ "\n" else acc.1) ++ headerOf sg, some sg.speaker)
    else acc
  (acc'.1 ++ lineOf sg, acc'.2)

/-- `format_transcript(segments, segment_num)` (lines 192-215): the banner,
then the speaker-grouped lines, then a final `"\n"`. -/
def format_transcript (segments : List Seg) (segment_num : Nat) : String :=
  (segments.foldl formatStep (segmentBanner segment_num, none)).1 ++ "\n"

/-- Specification side: maximal runs of adjacent same-speaker segments,
each run kept as its first segment paired with the remaining ones. -/
def runsBy : List Seg → List (Seg × List Seg)
  | [] => []
  | sg :: rest =>
      match runsBy rest with
      | [] => [(sg, [])]
      | (t, r) :: rs =>
          if sg.speaker = t.speaker then (sg, t :: r) :: rs else (sg, []) :: (t, r) :: rs

/-- Specification side: one text line per segment of a block. -/
def renderLines : List Seg → String
  | [] => ""
  | t :: ts => lineOf t ++ renderLines ts

/-- Specification side: a block is one header followed by its lines. -/
def renderBlock (b : Seg × List Seg) : String :=
  headerOf b.1 ++ lineOf b.1 ++ renderLines b.2

/-- Specification side: later blocks, each preceded by a blank line. -/
def renderTail : List (Seg × List Seg) → String
  | [] => ""
  | b :: bs => "\n" ++ renderBlock b ++ renderTail bs

/-- Specification side: all blocks, blank-line separated. -/
def renderBlocks : List (Seg × List Seg) → String
  | [] => ""
  | b :: bs => renderBlock b ++ renderTail bs

/-- The loop body of `format_transcript` as a recursion on the remaining
segments, carrying `current_speaker`. -/
def bodyFrom : Option String → List Seg → String
  | _, [] => ""
  | cur, sg :: rest =>
      (if some sg.speaker ≠ cur then
        (if cur ≠ none then "\n" else "") ++ headerOf sg
      else "") ++ lineOf sg ++ bodyFrom (some sg.speaker) rest

/-- Continuation of a block for speaker `sp`: if the first remaining run has
the same speaker its lines continue the current block, otherwise a blank
line and a fresh block follow. -/
def renderContinue (sp : String) : List (Seg × List Seg) → String
  | [] => ""
  | (t, r) :: rs =>
      if t.speaker = sp then lineOf t ++ renderLines r ++ renderTail rs
      else "\n" ++ renderBlock (t, r) ++ renderTail rs

theorem formatStep_ne (out : String) (cur : Option String) (sg : Seg)
    (h : some sg.speaker ≠ cur) :
    formatStep (out, cur) sg =
      ((if cur ≠ none then out ++ "\n" else out) ++ headerOf sg ++ lineOf sg,
        some sg.speaker) := by
  simp only [formatStep]
  rw [if_pos h]

theorem formatStep_eq (out : String) (cur : Option String) (sg : Seg)
    (h : ¬ some sg.speaker ≠ cur) :
    formatStep (out, cur) sg = (out ++ lineOf sg, cur) := by
  simp only [formatStep]
  rw [if_neg h]

theorem foldl_formatStep_eq (segs : List Seg) :
    ∀ (out : String) (cur : Option String),
      (segs.foldl formatStep (out, cur)).1 = out ++ bodyFrom cur segs := by
  induction segs with
  | nil =>
      intro out cur
      simp [bodyFrom]
  | cons sg rest ih =>
      intro out cur
      rw [List.foldl_cons]
      by_cases hsp : some sg.speaker ≠ cur
      · rw [formatStep_ne out cur sg hsp, ih]
        simp only [bodyFrom]
        rw [if_pos hsp]
        by_cases hc : cur ≠ none
        · rw [if_pos hc, if_pos hc]
          simp [String.append_assoc]
        · rw [if_neg hc, if_neg hc]
          simp [String.append_assoc]
      · rw [formatStep_eq out cur sg hsp, ih]
        have hcur : some sg.speaker = cur := not_ne_iff.mp hsp
        simp only [bodyFrom]
        rw [if_neg hsp, ← hcur]
        simp [String.append_assoc]

theorem runsBy_cons_of_nil (sg : Seg) (rest : List Seg) (h : runsBy rest = []) :
    runsBy (sg :: rest) = [(sg, [])] := by
  simp only [runsBy, h]

theorem runsBy_cons_of_eq (sg : Seg) (rest : List Seg) (t : Seg)
    (r : List Seg) (rs : List (Seg × List Seg))
    (h : runsBy rest = (t, r) :: rs) (hsp : sg.speaker = t.speaker) :
    runsBy (sg :: rest) = (sg, t :: r) :: rs := by
  simp only [runsBy, h]
  rw [if_pos hsp]

theorem runsBy_cons_of_ne (sg : Seg) (rest : List Seg) (t : Seg)
    (r : List Seg) (rs : List (Seg × List Seg))
    (h : runsBy rest = (t, r) :: rs) (hsp : ¬ sg.speaker = t.speaker) :
    runsBy (sg :: rest) = (sg, []) :: (t, r) :: rs := by
  simp only [runsBy, h]
  rw [if_neg hsp]

theorem bodyFrom_some (rest : List Seg) :
    ∀ sp : String, bodyFrom (some sp) rest = renderContinue sp (runsBy rest) := by
  induction rest with
  | nil =>
      intro sp
      simp [bodyFrom, runsBy, renderContinue]
  | cons sg rest' ih =>
      intro sp
      have hlhs : bodyFrom (some sp) (sg :: rest') =
          (if sg.speaker ≠ sp then "\n" ++ headerOf sg else "") ++ lineOf sg
            ++ bodyFrom (some sg.speaker) rest' := by
        simp only [bodyFrom]
        by_cases hsp : sg.speaker = sp
        · rw [if_neg (by simp [hsp]), if_neg (by simp [hsp])]
        · rw [if_pos (by simp [hsp]), if_pos (by simp [hsp])]
          simp [hsp]
      rw [hlhs, ih sg.speaker]
      cases hr : runsBy rest' with
      | nil =>
          rw [runsBy_cons_of_nil sg rest' hr]
          simp only [renderContinue, renderLines, renderTail, renderBlock]
          by_cases hsp : sg.speaker = sp
          · rw [if_neg (by simp [hsp]), if_pos hsp]
            simp
          · rw [if_pos (by simp [hsp]), if_neg hsp]
            simp [String.append_assoc]
      | cons b rs =>
          obtain ⟨t, r⟩ := b
          by_cases hts : t.speaker = sg.speaker
          · rw [runsBy_cons_of_eq sg rest' t r rs hr hts.symm]
            simp only [renderContinue, renderLines, renderTail, renderBlock]
            rw [if_pos hts]
            by_cases hsp : sg.speaker = sp
            · rw [if_neg (by simp [hsp]), if_pos hsp]
              simp [String.append_assoc]
            · rw [if_pos (by simp [hsp]), if_neg hsp]
              simp [String.append_assoc]
          · rw [runsBy_cons_of_ne sg rest' t r rs hr (fun hh => hts hh.symm)]
            simp only [renderContinue, renderLines, renderTail, renderBlock]
            rw [if_neg hts]
            by_cases hsp : sg.speaker = sp
            · rw [if_neg (by simp [hsp]), if_pos hsp]
              simp [String.append_assoc]
            · rw [if_pos (by simp [hsp]), if_neg hsp]
              simp [String.append_assoc]

theorem bodyFrom_none (segs : List Seg) :
    bodyFrom none segs = renderBlocks (runsBy segs) := by
  cases segs with
  | nil => simp [bodyFrom, runsBy, renderBlocks]
  | cons sg rest =>
      have hlhs : bodyFrom none (sg :: rest) =
          headerOf sg ++ lineOf sg ++ bodyFrom (some sg.speaker) rest := by
        simp only [bodyFrom]
        rw [if_pos (by simp), if_neg (by simp)]
        simp
      rw [hlhs, bodyFrom_some rest sg.speaker]
      cases hr : runsBy rest with
      | nil =>
          rw [runsBy_cons_of_nil sg rest hr]
          simp only [renderContinue, renderBlocks, renderBlock, renderLines, renderTail]
          simp
      | cons b rs =>
          obtain ⟨t, r⟩ := b
          by_cases hts : t.speaker = sg.speaker
          · rw [runsBy_cons_of_eq sg rest t r rs hr hts.symm]
            simp only [renderContinue, renderBlocks, renderBlock, renderLines, renderTail]
            rw [if_pos hts]
            simp [String.append_assoc]
          · rw [runsBy_cons_of_ne sg rest t r rs hr (fun hh => hts hh.symm)]
            simp only [renderContinue, renderBlocks, renderBlock, renderLines, renderTail]
            rw [if_neg hts]
            simp [String.append_assoc]

theorem format_transcript_eq_blocks (segments : List Seg) (segment_num : Nat) :
    format_transcript segments segment_num =
      segmentBanner segment_num ++ renderBlocks (runsBy segments) ++ "\n" := by
  unfold format_transcript
  rw [foldl_formatStep_eq segments (segmentBanner segment_num) none, bodyFrom_none]

/-- Claim C3: `format_transcript` emits a new block header (timestamp plus
speaker) exactly where a segment's speaker differs from the previous
segment's (including the first segment), and otherwise appends the text as
a line of the current block; grouping follows the given order only.  This
is stated as: the output is the banner followed by the rendering of the
maximal runs of adjacent same-speaker segments, one header per run.  On the
three segments A/"hi", A/"there", B/"hello" it yields exactly two blocks:
a header for A with two lines, then a header for B with one line. -/
theorem C3_format_transcript_grouping :
    (∀ (segments : List Seg) (segment_num : Nat),
      format_transcript segments segment_num =
        segmentBanner segment_num ++ renderBlocks (runsBy segments) ++ "\n")
    ∧ runsBy [⟨"A", 0, 1, "hi"⟩, ⟨"A", 2, 3, "there"⟩, ⟨"B", 5, 6, "hello"⟩]
        = [(⟨"A", 0, 1, "hi"⟩, [⟨"A", 2, 3, "there"⟩]), (⟨"B", 5, 6, "hello"⟩, [])]
    ∧ format_transcript [⟨"A", 0, 1, "hi"⟩, ⟨"A", 2, 3, "there"⟩, ⟨"B", 5, 6, "hello"⟩] 1
        = segmentBanner 1
          ++ "[00:00:00] A:\n  hi\n  there\n\n[00:00:05] B:\n  hello\n" ++ "\n" := by
  have hruns : runsBy [⟨"A", 0, 1, "hi"⟩, ⟨"A", 2, 3, "there"⟩, ⟨"B", 5, 6, "hello"⟩]
      = [(⟨"A", 0, 1, "hi"⟩, [⟨"A", 2, 3, "there"⟩]), (⟨"B", 5, 6, "hello"⟩, [])] := by
    decide
  refine ⟨format_transcript_eq_blocks, hruns, ?_⟩
  rw [format_transcript_eq_blocks, hruns]
  have hf0 : format_time 0 = "00:00:00" := by
    rw [format_time_eval 0 0 0 0 0 (le_refl 0) (by norm_num) (by norm_num) (by norm_num)
      (by norm_num)]
    rfl
  have hf5 : format_time 5 = "00:00:05" := by
    rw [format_time_eval 5 0 0 0 5 (by norm_num) (by norm_num [Int.floor_eq_iff])
      (by norm_num [Int.floor_eq_iff]) (by norm_num [Int.floor_eq_iff])
      (by norm_num [Int.floor_eq_iff])]
    rfl
  congr 1
  congr 1
  simp only [renderBlocks, renderBlock, renderTail, renderLines, headerOf, lineOf]
  rw [hf0, hf5]
  decide

/-- Claim C5: `format_transcript` is deterministic and stateless: it is a
pure function of the segment list and segment number, so any two
applications to equal inputs produce byte-identical output strings. -/
theorem C5_format_transcript_deterministic (segs₁ segs₂ : List Seg) (n₁ n₂ : Nat)
    (h₁ : segs₁ = segs₂) (h₂ : n₁ = n₂) :
    format_transcript segs₁ n₁ = format_transcript segs₂ n₂ := by
  rw [h₁, h₂]

theorem C5_format_transcript_deterministic_witness :
    format_transcript [⟨"A", 0, 1, "hi"⟩] 1 = format_transcript [⟨"A", 0, 1, "hi"⟩] 1 :=
  C5_format_transcript_deterministic [⟨"A", 0, 1, "hi"⟩] [⟨"A", 0, 1, "hi"⟩] 1 1 rfl rfl

/-- Observable effects of the recording scripts, in program order. -/
inductive Event where
  | printed (msg : String)
  | loadedPipeline
  | madeSessionDir
  | wroteMasterHeader
  | openedStream
  | fullCapture (n : Nat)
  | cutCapture (n : Nat)
  | savedWav (n : Nat)
  | startedTranscription (n : Nat)
  | closedStream
deriving DecidableEq, Repr

/-- External outcome of one iteration of the capture loop: either the inner
`stream.read` loop runs until the segment duration elapses (`full`), or a
`KeyboardInterrupt` arrives during a blocking `stream.read` call
(`interrupted`). -/
inductive SegOutcome where
  | full
  | interrupted
deriving DecidableEq, Repr

/-- The capture loop shared by `record_and_transcribe_continuous`
(transcript-by-segment.py, lines 94-129) and
`record_and_transcribe_with_diarization`
(transcript-with-diarization.py, lines 231-265): each iteration buffers
frames in the inner read loop, and only after that loop finishes does it
write the segment's WAV file and start the processing thread.  A
`KeyboardInterrupt` raised inside `stream.read` propagates out of both
`while` loops straight to the `except KeyboardInterrupt` handler, so an
interrupted iteration performs neither the WAV write nor the thread start,
and the loop ends. -/
def recordLoop : List SegOutcome → Nat → List Event
  | [], _ => []
  | SegOutcome.full :: rest, n =>
      Event.fullCapture n :: Event.savedWav n :: Event.startedTranscription n ::
        recordLoop rest (n + 1)
  | SegOutcome.interrupted :: _, n => [Event.cutCapture n]

/-- Python truthiness test `if not HF_TOKEN:` on `os.getenv("HF_TOKEN")`:
an absent variable (`None`) and an empty string are both falsy. -/
def tokenMissing : Option String → Bool
  | none => true
  | some t => t.isEmpty

/-- `record_and_transcribe_with_diarization(model_size, ...)`
(transcript-with-diarization.py, lines 39-274) as an event trace: the two
startup prints, then the `HF_TOKEN` check of lines 56-64 — on a falsy token
the error message and setup instructions are printed and the function
returns at line 64, before the pipeline load, session directory, master
file, audio stream or any capture; otherwise the setup effects happen and
the capture loop runs. -/
def record_with_diarization_trace (model_size : String) (hfToken : Option String)
    (sched : List SegOutcome) : List Event :=
  Event.printed ("🔄 Using MLX Whisper \x27" ++ model_size
      ++ "\x27 (Apple Silicon optimized)...")
    :: Event.printed "🔄 Loading diarization model..."
    :: (if tokenMissing hfToken then
          [Event.printed "\n❌ ERROR: HuggingFace token not found!",
           Event.printed "   1. Get token: https://huggingface.co/settings/tokens",
           Event.printed
             "   2. Accept terms: https://huggingface.co/pyannote/speaker-diarization-3.1",
           Event.printed "   3. Create a .env file in your project root with:",
           Event.printed "      HF_TOKEN=your_token_here\n"]
        else
          Event.loadedPipeline :: Event.madeSessionDir :: Event.wroteMasterHeader ::
            Event.openedStream :: (recordLoop sched 1 ++ [Event.closedStream]))

/-- Claim C6: with `HF_TOKEN` absent from the environment, the diarization
script reports the missing credential with setup instructions and returns
before any recording begins: no pipeline load, no session directory, no
master file, no audio stream, and no captured, saved or processed
segment. -/
theorem C6_missing_token_aborts (model_size : String) (hfToken : Option String)
    (sched : List SegOutcome) (h : hfToken = none) :
    Event.printed "\n❌ ERROR: HuggingFace token not found!"
        ∈ record_with_diarization_trace model_size hfToken sched
    ∧ Event.printed "      HF_TOKEN=your_token_here\n"
        ∈ record_with_diarization_trace model_size hfToken sched
    ∧ Event.loadedPipeline ∉ record_with_diarization_trace model_size hfToken sched
    ∧ Event.madeSessionDir ∉ record_with_diarization_trace model_size hfToken sched
    ∧ Event.wroteMasterHeader ∉ record_with_diarization_trace model_size hfToken sched
    ∧ Event.openedStream ∉ record_with_diarization_trace model_size hfToken sched
    ∧ (∀ n : Nat,
        Event.fullCapture n ∉ record_with_diarization_trace model_size hfToken sched
        ∧ Event.cutCapture n ∉ record_with_diarization_trace model_size hfToken sched
        ∧ Event.savedWav n ∉ record_with_diarization_trace model_size hfToken sched
        ∧ Event.startedTranscription n
            ∉ record_with_diarization_trace model_size hfToken sched) := by
  subst h
  simp [record_with_diarization_trace, tokenMissing]

theorem C6_missing_token_aborts_witness :
    Event.printed "\n❌ ERROR: HuggingFace token not found!"
        ∈ record_with_diarization_trace "medium" none []
    ∧ Event.printed "      HF_TOKEN=your_token_here\n"
        ∈ record_with_diarization_trace "medium" none []
    ∧ Event.loadedPipeline ∉ record_with_diarization_trace "medium" none []
    ∧ Event.madeSessionDir ∉ record_with_diarization_trace "medium" none []
    ∧ Event.wroteMasterHeader ∉ record_with_diarization_trace "medium" none []
    ∧ Event.openedStream ∉ record_with_diarization_trace "medium" none []
    ∧ (∀ n : Nat,
        Event.fullCapture n ∉ record_with_diarization_trace "medium" none []
        ∧ Event.cutCapture n ∉ record_with_diarization_trace "medium" none []
        ∧ Event.savedWav n ∉ record_with_diarization_trace "medium" none []
        ∧ Event.startedTranscription n ∉ record_with_diarization_trace "medium" none []) :=
  C6_missing_token_aborts "medium" none [] rfl

/-- `a` occurs strictly before `b` in the trace `l`. -/
def precedes (a b : Event) (l : List Event) : Prop :=
  ∃ l₁ l₂ l₃ : List Event, l = l₁ ++ a :: l₂ ++ b :: l₃

/-- Recognizer for a capture cut short by an interrupt. -/
def isCutCapture : Event → Bool
  | Event.cutCapture _ => true
  | _ => false

theorem recordLoop_mem_ge (sched : List SegOutcome) :
    ∀ (n₀ k : Nat),
      (Event.savedWav k ∈ recordLoop sched n₀ → n₀ ≤ k)
      ∧ (Event.startedTranscription k ∈ recordLoop sched n₀ → n₀ ≤ k)
      ∧ (Event.cutCapture k ∈ recordLoop sched n₀ → n₀ ≤ k) := by
  induction sched with
  | nil =>
      intro n₀ k
      refine ⟨?_, ?_, ?_⟩ <;> intro hk <;> simp [recordLoop] at hk
  | cons o rest ih =>
      intro n₀ k
      cases o with
      | full =>
          refine ⟨?_, ?_, ?_⟩ <;> intro hk <;>
            simp only [recordLoop, List.mem_cons] at hk
          · rcases hk with hk | hk | hk | hk
            · exact absurd hk (by simp)
            · exact le_of_eq (Event.savedWav.injEq .. ▸ hk).symm
            · exact absurd hk (by simp)
            · exact le_trans (Nat.le_succ n₀) ((ih (n₀ + 1) k).1 hk)
          · rcases hk with hk | hk | hk | hk
            · exact absurd hk (by simp)
            · exact absurd hk (by simp)
            · exact le_of_eq (Event.startedTranscription.injEq .. ▸ hk).symm
            · exact le_trans (Nat.le_succ n₀) ((ih (n₀ + 1) k).2.1 hk)
          · rcases hk with hk | hk | hk | hk
            · exact absurd hk (by simp)
            · exact absurd hk (by simp)
            · exact absurd hk (by simp)
            · exact le_trans (Nat.le_succ n₀) ((ih (n₀ + 1) k).2.2 hk)
      | interrupted =>
          refine ⟨?_, ?_, ?_⟩ <;> intro hk <;>
            simp only [recordLoop, List.mem_cons, List.not_mem_nil, or_false] at hk
          · exact absurd hk (by simp)
          · exact absurd hk (by simp)
          · exact le_of_eq (Event.cutCapture.injEq .. ▸ hk).symm

/-- Counterexample to claim C7 as stated: in a run whose first segment's
capture is cut short by a `KeyboardInterrupt`, the trace is just the cut
capture — the segment is never written to a WAV file (and never processed),
contradicting "each segment is persisted ... including a segment whose
recording is cut short by cancellation". -/
theorem C7_interrupted_segment_not_saved :
    recordLoop [SegOutcome.interrupted] 1 = [Event.cutCapture 1]
    ∧ Event.cutCapture 1 ∈ recordLoop [SegOutcome.interrupted] 1
    ∧ Event.savedWav 1 ∉ recordLoop [SegOutcome.interrupted] 1
    ∧ Event.startedTranscription 1 ∉ recordLoop [SegOutcome.interrupted] 1 := by
  refine ⟨rfl, by decide, by decide, by decide⟩

/-- Claim C7 (amended): every segment whose recording duration elapses is
written to its WAV file before its processing begins; a segment cut short
by an interrupt is never written (and never processed); and at most one
capture in any run is cut short — so interrupting the process mid-capture
loses at most the one in-flight segment's audio. -/
theorem C7_segment_persisted_before_processing (sched : List SegOutcome) (n₀ : Nat) :
    (∀ k : Nat, Event.startedTranscription k ∈ recordLoop sched n₀ →
        precedes (Event.savedWav k) (Event.startedTranscription k) (recordLoop sched n₀))
    ∧ (∀ k : Nat, Event.cutCapture k ∈ recordLoop sched n₀ →
        Event.savedWav k ∉ recordLoop sched n₀
          ∧ Event.startedTranscription k ∉ recordLoop sched n₀)
    ∧ ((recordLoop sched n₀).filter isCutCapture).length ≤ 1 := by
  induction sched generalizing n₀ with
  | nil =>
      refine ⟨?_, ?_, ?_⟩
      · intro k hk
        simp [recordLoop] at hk
      · intro k hk
        simp [recordLoop] at hk
      · simp [recordLoop]
  | cons o rest ih =>
      cases o with
      | full =>
          refine ⟨?_, ?_, ?_⟩
          · intro k hk
            simp only [recordLoop, List.mem_cons] at hk
            rcases hk with hk | hk | hk | hk
            · exact absurd hk (by simp)
            · exact absurd hk (by simp)
            · have hkn : k = n₀ := (Event.startedTranscription.injEq .. ▸ hk)
              subst hkn
              exact ⟨[Event.fullCapture k], [], recordLoop rest (k + 1), rfl⟩
            · obtain ⟨l₁, l₂, l₃, hdec⟩ := (ih (n₀ + 1)).1 k hk
              refine ⟨Event.fullCapture n₀ :: Event.savedWav n₀
                  :: Event.startedTranscription n₀ :: l₁, l₂, l₃, ?_⟩
              simp [recordLoop, hdec]
          · intro k hk
            simp only [recordLoop, List.mem_cons] at hk
            rcases hk with hk | hk | hk | hk
            · exact absurd hk (by simp)
            · exact absurd hk (by simp)
            · exact absurd hk (by simp)
            · have hge : n₀ + 1 ≤ k := (recordLoop_mem_ge rest (n₀ + 1) k).2.2 hk
              obtain ⟨hs, ht⟩ := (ih (n₀ + 1)).2.1 k hk
              constructor
              · intro hmem
                simp only [recordLoop, List.mem_cons] at hmem
                rcases hmem with hmem | hmem | hmem | hmem
                · exact absurd hmem (by simp)
                · have : k = n₀ := (Event.savedWav.injEq .. ▸ hmem)
                  omega
                · exact absurd hmem (by simp)
                · exact hs hmem
              · intro hmem
                simp only [recordLoop, List.mem_cons] at hmem
                rcases hmem with hmem | hmem | hmem | hmem
                · exact absurd hmem (by simp)
                · exact absurd hmem (by simp)
                · have : k = n₀ := (Event.startedTranscription.injEq .. ▸ hmem)
                  omega
                · exact ht hmem
          · have := (ih (n₀ + 1)).2.2
            simpa [recordLoop, isCutCapture, List.filter_cons] using this
      | interrupted =>
          refine ⟨?_, ?_, ?_⟩
          · intro k hk
            simp [recordLoop] at hk
          · intro k hk
            refine ⟨by simp [recordLoop], by simp [recordLoop]⟩
          · simp [recordLoop, isCutCapture, List.filter_cons]

theorem C7_segment_persisted_before_processing_witness :
    precedes (Event.savedWav 1) (Event.startedTranscription 1)
      (recordLoop [SegOutcome.full, SegOutcome.interrupted] 1) :=
  (C7_segment_persisted_before_processing [SegOutcome.full, SegOutcome.interrupted] 1).1
    1 (by decide)

/-- Outcome of the `mlx_whisper.transcribe` call in `whipser-mp3.py`:
success with the transcribed text, a `FileNotFoundError`, or any other
exception carrying a message. -/
inductive TranscribeOutcome where
  | ok (text : String)
  | fileNotFound
  | otherError (msg : String)
deriving DecidableEq, Repr

/-- The user-facing message produced by the try/except of `whipser-mp3.py`
(lines 24-39): the success print, the dedicated `FileNotFoundError` message
naming `audio_file_path`, or the generic failure message of the
`except Exception` branch. -/
def whisper_mp3_message (audio_file_path txt_file_path : String) :
    TranscribeOutcome → String
  | TranscribeOutcome.ok _ =>
      "Transcription terminée. Voir le fichier \x27" ++ txt_file_path ++ "\x27."
  | TranscribeOutcome.fileNotFound =>
      "Le fichier " ++ audio_file_path ++ " n\x27a pas été trouvé."
  | TranscribeOutcome.otherError e =>
      "Une erreur s\x27est produite lors de la transcription : " ++ e

/-- Claim C8: in the batch (non-live) script a missing input audio file is
reported with a dedicated file-not-found message that names the missing
path, and that message differs from the generic failure message printed for
every other exception during transcription. -/
theorem C8_file_not_found_distinct (audio_file_path txt_file_path : String) :
    (∃ pre suf : String,
      whisper_mp3_message audio_file_path txt_file_path TranscribeOutcome.fileNotFound
        = pre ++ audio_file_path ++ suf)
    ∧ ∀ e : String,
        whisper_mp3_message audio_file_path txt_file_path TranscribeOutcome.fileNotFound
          ≠ whisper_mp3_message audio_file_path txt_file_path
              (TranscribeOutcome.otherError e) := by
  constructor
  · exact ⟨"Le fichier ", " n\x27a pas été trouvé.", rfl⟩
  · intro e h
    have hd := congrArg String.data h
    simp only [whisper_mp3_message] at hd
    rw [String.data_append, String.data_append, String.data_append] at hd
    have h1 : ("Le fichier " : String).data = 'L' :: ("e fichier " : String).data := rfl
    have h2 : ("Une erreur s\x27est produite lors de la transcription : " : String).data
        = 'U' :: ("ne erreur s\x27est produite lors de la transcription : " : String).data :=
      rfl
    rw [h1, h2, List.cons_append, List.cons_append] at hd
    injection hd with hch _
    exact absurd hch (by decide)
